import Mathlib

/-!
Verification of the fixed-size worker thread pool in
src/thread_pool_example.cpp (class ThreadPool).

The pool is embedded shallowly.  A task is identified by the order of its
creation inside ThreadPool::enqueue (a natural number id); an environment
`env : Nat → Body` gives each task id the behaviour of the callable bound at
submission time.  The mutex protected critical sections of the C++ source
(the enqueue under the lock, a worker claiming the queue head under the lock,
the destructor setting stop under the lock) and each task invocation become
atomic transitions of a step relation `Step`; arbitrary thread interleavings
are the choices of which transition fires next.  `Reach` is the set of pool
states reachable from a freshly constructed pool.
-/

set_option autoImplicit false

/-- A task body as bound at enqueue time: invoking it either returns a value
or raises a failure (an exception identified by a numeric description). -/
inductive Body where
  | ret (v : Int)
  | raise (e : Nat)
deriving DecidableEq

/-- Outcome of invoking a task body, as stored by the packaged task in the
shared state of its future: a success value or a captured failure. -/
inductive Outcome where
  | ok (v : Int)
  | err (e : Nat)
deriving DecidableEq

/-- Invoking a task body through its packaged task: a returning body yields
its value, a raising body yields the captured failure.  The packaged task
catches whatever the body raises and stores it; nothing escapes. -/
def runBody : Body → Outcome
  | .ret v => .ok v
  | .raise e => .err e

/-- Status of one worker thread: blocked in its loop waiting to claim a task,
holding a claimed task it is about to invoke, or returned from the thread
function (so that joining it completes immediately). -/
inductive WStatus where
  | idle
  | busy (t : Nat)
  | terminated
deriving DecidableEq

/-- State of one ThreadPool instance.  `stop`, `queue` and `workers` are the
fields of the C++ class (tasks in the queue recorded by id, worker threads by
status).  `claimed`, `executed` and `enqueued` are histories recorded for the
statements of the theorems: the ids popped from the queue in pop order, the
invoked tasks with their outcomes in invocation order, and the ids that
enqueue appended in append order.  `nextId` is the id the next successful
enqueue will create. -/
structure PState where
  stop : Bool
  queue : List Nat
  workers : List WStatus
  claimed : List Nat
  executed : List (Nat × Outcome)
  enqueued : List Nat
  nextId : Nat
deriving DecidableEq

/-- The ThreadPool constructor: `stop` is initialised `false` and exactly
`threads` workers are spawned, each entering its idle loop; no clamping of
`threads` occurs — `mkPool 0` is a pool with no workers. -/
def mkPool (threads : Nat) : PState :=
  { stop := false
    queue := []
    workers := List.replicate threads WStatus.idle
    claimed := []
    executed := []
    enqueued := []
    nextId := 0 }

/-- The failure ThreadPool::enqueue throws when the pool has stopped
(the runtime error with message enqueue on stopped ThreadPool). -/
inductive PoolError where
  | poolStopped
deriving DecidableEq

/-- ThreadPool::enqueue, the part under the queue lock: if `stop` is set it
throws `poolStopped`; otherwise the packaged task is appended to the tail of
the queue and the future paired with it is returned to the caller as the
handle, identified here by the fresh task id. -/
def enqueueOp (s : PState) : Except PoolError (PState × Nat) :=
  if s.stop then .error .poolStopped
  else .ok
    ({ s with
        queue := s.queue ++ [s.nextId]
        enqueued := s.enqueued ++ [s.nextId]
        nextId := s.nextId + 1 }, s.nextId)

/-- The submitting caller's view of one enqueue call: on success the updated
pool and the handle, on the throw the pool exactly as it was and no handle. -/
def enqueueRun (s : PState) : PState × Option Nat :=
  match enqueueOp s with
  | .ok (s2, h) => (s2, some h)
  | .error _ => (s, none)

/-- The task a worker currently holds, if any. -/
def busyTask : WStatus → Option Nat
  | .busy t => some t
  | _ => none

/-- Tasks claimed from the queue by some worker but not yet invoked. -/
def inFlightL (s : PState) : List Nat :=
  s.workers.filterMap busyTask

/-- Ids of the tasks that have been invoked, in invocation order. -/
def execIds (s : PState) : List Nat :=
  s.executed.map Prod.fst

/-- Every worker thread of the pool has returned from its loop. -/
def allTerminated (l : List WStatus) : Prop :=
  ∀ w ∈ l, w = WStatus.terminated

instance (l : List WStatus) : Decidable (allTerminated l) :=
  List.decidableBAll _ l

/-- One atomic transition of the pool.  Each constructor is one critical
section or one task invocation of the C++ source:
`enq` a successful ThreadPool::enqueue;
`claim` a worker, woken with the queue nonempty, moving the queue head into
its local `task` under the lock (lines tasks.front / tasks.pop);
`exec` a worker invoking its claimed task outside the lock, the outcome being
stored by the packaged task;
`exit` a worker returning from its loop, which the source allows exactly when
`stop` is set and the queue is empty;
`setStop` the destructor setting `stop` under the lock. -/
inductive Step (env : Nat → Body) : PState → PState → Prop where
  | enq (s s2 : PState) (h : Nat) (he : enqueueOp s = .ok (s2, h)) :
      Step env s s2
  | claim (s : PState) (w t : Nat) (q : List Nat)
      (hw : s.workers[w]? = some WStatus.idle) (hq : s.queue = t :: q) :
      Step env s
        { s with
            queue := q
            workers := s.workers.set w (WStatus.busy t)
            claimed := s.claimed ++ [t] }
  | exec (s : PState) (w t : Nat)
      (hw : s.workers[w]? = some (WStatus.busy t)) :
      Step env s
        { s with
            workers := s.workers.set w WStatus.idle
            executed := s.executed ++ [(t, runBody (env t))] }
  | exit (s : PState) (w : Nat) (hw : s.workers[w]? = some WStatus.idle)
      (hstop : s.stop = true) (hq : s.queue = []) :
      Step env s { s with workers := s.workers.set w WStatus.terminated }
  | setStop (s : PState) : Step env s { s with stop := true }

/-- Pool states reachable from a freshly constructed pool of `n` workers by
interleaving the pool transitions. -/
inductive Reach (env : Nat → Body) (n : Nat) : PState → Prop where
  | init : Reach env n (mkPool n)
  | step {s s2 : PState} (hr : Reach env n s) (hs : Step env s s2) :
      Reach env n s2

/-- The worker count chosen by main: the hardware concurrency hint when it is
positive, else 4 (the expression n > 0 ? n : 4). -/
def mainWorkerCount (hw : Nat) : Nat :=
  if hw > 0 then hw else 4

/-- Finitely many pool transitions in sequence: the interleavings that run
between the destructor setting `stop` and its joins returning. -/
inductive StepStar (env : Nat → Body) : PState → PState → Prop where
  | refl (s : PState) : StepStar env s s
  | tail {s s2 s3 : PState} (h : StepStar env s s2) (hs : Step env s2 s3) :
      StepStar env s s3

/-- Remaining work a worker represents before it can return: a busy worker
must still invoke its claimed task and come back to its loop head, an idle
worker must still observe stop with an empty queue and return, a returned
worker is done (its join completes immediately). -/
def wWeight : WStatus → Nat
  | .terminated => 0
  | .idle => 1
  | .busy _ => 2

/-- Remaining work of the whole pool: each queued task still needs a locked
pop and an invocation, plus the remaining work of every worker.  Every worker
transition strictly decreases it, which is why the destructor's joins
return. -/
def poolMeasure (s : PState) : Nat :=
  2 * s.queue.length + (s.workers.map wWeight).sum

/-- The failure std::future::get raises when the future no longer owns a
shared state. -/
inductive FutureErr where
  | noState
deriving DecidableEq

/-- A std::future as ThreadPool::enqueue returns it: it owns the shared state
holding the task's outcome until get() releases it. -/
structure Future where
  st : Option Outcome
deriving DecidableEq

/-- std::future::get: waits for the outcome, returns it and releases the
shared state, leaving the future invalid; calling it on a future without a
shared state does not produce the outcome again (undefined behaviour in the
standard, observed as the no-state failure that implementations raise). -/
def Future.get (f : Future) : Except FutureErr Outcome × Future :=
  match f.st with
  | some out => (.ok out, ⟨none⟩)
  | none => (.error .noState, ⟨none⟩)

/-- An environment for concrete runs: every task returns 0. -/
def env0 : Nat → Body := fun _ => Body.ret 0

/-- The environment of the three-task scenario of the spec: the first task
returns 1, the second raises failure 7, the third returns 3. -/
def envC : Nat → Body :=
  fun i => if i = 0 then Body.ret 1 else if i = 1 then Body.raise 7 else Body.ret 3

/-- A reachable state of a two-worker pool in which one worker has already
returned while the task enqueued before shutdown is still unexecuted, held by
the other worker. -/
def drainCexState : PState :=
  { stop := true
    queue := []
    workers := [WStatus.terminated, WStatus.busy 0]
    claimed := [0]
    executed := []
    enqueued := [0]
    nextId := 1 }

/-- A reachable state of a two-worker pool in which the two tasks were
claimed in FIFO order 0, 1 but completed in the order 1, 0. -/
def unorderedDoneState : PState :=
  { stop := false
    queue := []
    workers := [WStatus.idle, WStatus.idle]
    claimed := [0, 1]
    executed := [(1, Outcome.ok 0), (0, Outcome.ok 0)]
    enqueued := [0, 1]
    nextId := 2 }

/-- Midpoint of a single-worker run of the three-task scenario: the first
task has been executed successfully, the raising second task is claimed. -/
def singleRunMid : PState :=
  { stop := false
    queue := [2]
    workers := [WStatus.busy 1]
    claimed := [0, 1]
    executed := [(0, Outcome.ok 1)]
    enqueued := [0, 1, 2]
    nextId := 3 }

/-- The single-worker run of the three-task scenario just before the worker
exits: stop has been set and the queue drained. -/
def singleRunStopped : PState :=
  { stop := true
    queue := []
    workers := [WStatus.idle]
    claimed := [0, 1, 2]
    executed := [(0, Outcome.ok 1), (1, Outcome.err 7), (2, Outcome.ok 3)]
    enqueued := [0, 1, 2]
    nextId := 3 }

/-- The completed single-worker run of the three-task scenario: the worker
has returned after executing all three tasks. -/
def singleRunFinal : PState :=
  { stop := true
    queue := []
    workers := [WStatus.terminated]
    claimed := [0, 1, 2]
    executed := [(0, Outcome.ok 1), (1, Outcome.err 7), (2, Outcome.ok 3)]
    enqueued := [0, 1, 2]
    nextId := 3 }

/-! ### Helper lemmas -/

theorem enqueueOp_ok_elim {s s2 : PState} {h : Nat}
    (he : enqueueOp s = .ok (s2, h)) :
    s.stop = false ∧
    s2 = { s with
            queue := s.queue ++ [s.nextId]
            enqueued := s.enqueued ++ [s.nextId]
            nextId := s.nextId + 1 } ∧
    h = s.nextId := by
  cases hst : s.stop with
  | true => simp [enqueueOp, hst] at he
  | false =>
    simp [enqueueOp, hst] at he
    exact ⟨rfl, he.1.symm, he.2.symm⟩

/-! ### Claim theorems -/

/-- C1: submitting a task after shutdown has begun fails synchronously with
the pool-stopped error and yields no handle, while a submit on a running pool
succeeds, appends the task and returns the fresh handle. -/
theorem c1_enqueue_stop_behavior (s : PState) :
    (s.stop = true → enqueueOp s = .error .poolStopped) ∧
    (s.stop = false →
      enqueueOp s =
        .ok ({ s with
                queue := s.queue ++ [s.nextId]
                enqueued := s.enqueued ++ [s.nextId]
                nextId := s.nextId + 1 }, s.nextId)) := by
  constructor
  · intro h; simp [enqueueOp, h]
  · intro h; simp [enqueueOp, h]

/-- Witness for C1 at a stopped pool and at a running pool. -/
theorem c1_enqueue_witness :
    enqueueOp ({ mkPool 2 with stop := true }) = .error .poolStopped ∧
    enqueueOp (mkPool 2) =
      .ok ({ mkPool 2 with
              queue := (mkPool 2).queue ++ [(mkPool 2).nextId]
              enqueued := (mkPool 2).enqueued ++ [(mkPool 2).nextId]
              nextId := (mkPool 2).nextId + 1 }, (mkPool 2).nextId) :=
  ⟨(c1_enqueue_stop_behavior ({ mkPool 2 with stop := true })).1 rfl,
   (c1_enqueue_stop_behavior (mkPool 2)).2 rfl⟩

/-- C3 counterexample: the handle enqueue returns is a consuming future, so
on a fulfilled handle holding the value 42 the first get returns the outcome
but the second call does not return that same outcome again. -/
theorem c3_second_get_counterexample :
    (Future.get ⟨some (Outcome.ok 42)⟩).1 = .ok (Outcome.ok 42) ∧
    (Future.get (Future.get ⟨some (Outcome.ok 42)⟩).2).1 ≠ .ok (Outcome.ok 42) :=
  ⟨rfl, by simp [Future.get]⟩

/-- C3 amended: get may be called meaningfully at most once per handle: on a
handle still owning its fulfilled shared state, get returns exactly the
stored outcome (the task is not re-run) and releases the shared state; a
further get on the now invalid handle fails with the no-state error instead
of returning the outcome. -/
theorem c3_single_get_semantics (o : Outcome) :
    Future.get ⟨some o⟩ = (.ok o, ⟨none⟩) ∧
    Future.get ⟨none⟩ = (.error .noState, ⟨none⟩) :=
  ⟨rfl, rfl⟩

/-- C4 counterexample: the constructor does not clamp a zero worker count;
ThreadPool with 0 threads is a pool with no workers at all. -/
theorem c4_zero_workers_counterexample :
    ¬ 1 ≤ (mkPool 0).workers.length ∧ (mkPool 0).workers = [] := by
  decide

/-- C4 amended: the constructor spawns exactly the requested number of
workers for every requested count, including zero — no clamping happens in
the constructor; the clamping of a zero available-parallelism hint to 4 is
done by the demonstration caller main before constructing the pool, so main
never builds a zero-worker pool. -/
theorem c4_constructor_spawns_exactly (threads hw : Nat) :
    (mkPool threads).workers.length = threads ∧
    (mkPool threads).stop = false ∧
    1 ≤ mainWorkerCount hw ∧
    mainWorkerCount 0 = 4 := by
  refine ⟨by simp [mkPool], rfl, ?_, rfl⟩
  have hdef : mainWorkerCount hw = if hw > 0 then hw else 4 := rfl
  rw [hdef]
  split <;> omega

/-- C10: a submission attempted after shutdown began reports the pool-stopped
failure synchronously, leaves the pool state (in particular the queue)
exactly unchanged, and delivers no handle to the caller. -/
theorem c10_rejected_submit_atomic (s : PState) (h : s.stop = true) :
    enqueueRun s = (s, none) ∧ enqueueOp s = .error .poolStopped := by
  have he : enqueueOp s = .error .poolStopped := by simp [enqueueOp, h]
  exact ⟨by simp [enqueueRun, he], he⟩

/-- Witness for C10 at a concrete stopped pool. -/
theorem c10_rejected_submit_witness :
    ({ mkPool 1 with stop := true }).stop = true ∧
    (enqueueRun ({ mkPool 1 with stop := true }) = ({ mkPool 1 with stop := true }, none) ∧
      enqueueOp ({ mkPool 1 with stop := true }) = .error .poolStopped) :=
  ⟨rfl, c10_rejected_submit_atomic ({ mkPool 1 with stop := true }) rfl⟩

/-! ### Invariants of the step relation -/

theorem reach_hist {env : Nat → Body} {n : Nat} {s : PState}
    (h : Reach env n s) :
    s.claimed ++ s.queue = s.enqueued ∧
    s.enqueued = List.range s.nextId ∧
    s.workers.length = n := by
  induction h with
  | init => simp [mkPool]
  | @step s s2 hr hs ih =>
    obtain ⟨ih1, ih2, ih3⟩ := ih
    cases hs with
    | enq s2 hdl he =>
      obtain ⟨hstop, hs2, hh⟩ := enqueueOp_ok_elim he
      subst hs2
      refine ⟨?_, ?_, ?_⟩
      · simp only [← List.append_assoc, ih1]
      · simp [ih2, List.range_succ]
      · simpa using ih3
    | claim w t q hw hq =>
      refine ⟨?_, by simpa using ih2, by simpa using ih3⟩
      show (s.claimed ++ [t]) ++ q = s.enqueued
      rw [List.append_assoc]
      have hx : [t] ++ q = s.queue := by rw [hq]; rfl
      rw [hx, ih1]
    | exec w t hw => exact ⟨ih1, ih2, by simpa using ih3⟩
    | exit w hw hstop hq => exact ⟨ih1, ih2, by simpa using ih3⟩
    | setStop => exact ⟨ih1, ih2, ih3⟩

theorem filterMap_busy_replicate (n : Nat) :
    (List.replicate n WStatus.idle).filterMap busyTask = [] := by
  induction n with
  | zero => rfl
  | succ k ih =>
    rw [List.replicate_succ, List.filterMap_cons_none rfl, ih]

theorem count_filterMap_cons (t : Nat) (c : WStatus) (tl : List WStatus) :
    ((c :: tl).filterMap busyTask).count t
      = (tl.filterMap busyTask).count t + ((busyTask c).toList).count t := by
  cases c with
  | busy ta =>
    rw [List.filterMap_cons_some (rfl : busyTask (WStatus.busy ta) = some ta)]
    simp [busyTask, List.count_cons, List.count_singleton]
  | idle =>
    rw [List.filterMap_cons_none (rfl : busyTask WStatus.idle = none)]
    simp [busyTask]
  | terminated =>
    rw [List.filterMap_cons_none (rfl : busyTask WStatus.terminated = none)]
    simp [busyTask]

theorem count_filterMap_set (t : Nat) (x y : WStatus) :
    ∀ (l : List WStatus) (w : Nat), l[w]? = some y →
      ((l.set w x).filterMap busyTask).count t
          + ((busyTask y).toList).count t
        = (l.filterMap busyTask).count t
          + ((busyTask x).toList).count t := by
  intro l
  induction l with
  | nil => intro w hw; simp at hw
  | cons a tl ih =>
    intro w hw
    cases w with
    | zero =>
      simp only [List.getElem?_cons_zero, Option.some.injEq] at hw
      subst hw
      simp only [List.set_cons_zero]
      rw [count_filterMap_cons, count_filterMap_cons]
      omega
    | succ w =>
      simp only [List.getElem?_cons_succ] at hw
      have h2 := ih w hw
      simp only [List.set_cons_succ]
      rw [count_filterMap_cons, count_filterMap_cons]
      omega

theorem reach_count {env : Nat → Body} {n : Nat} {s : PState}
    (h : Reach env n s) :
    ∀ t, (execIds s).count t + (inFlightL s).count t + s.queue.count t
      = s.enqueued.count t := by
  induction h with
  | init =>
    intro t
    simp [mkPool, execIds, inFlightL, filterMap_busy_replicate]
  | @step s s2 hr hs ih =>
    intro t
    cases hs with
    | enq s2 hdl he =>
      obtain ⟨hstop, hs2, hh⟩ := enqueueOp_ok_elim he
      subst hs2
      have h0 := ih t
      simp only [execIds, inFlightL, List.count_append] at h0 ⊢
      omega
    | claim w tk q hw hq =>
      have h0 := ih t
      have hset := count_filterMap_set t (WStatus.busy tk) WStatus.idle
        s.workers w hw
      rw [hq] at h0
      simp only [execIds, inFlightL, busyTask, Option.toList,
        List.count_singleton, List.count_nil, List.count_cons] at h0 hset ⊢
      omega
    | exec w tk hw =>
      have h0 := ih t
      have hset := count_filterMap_set t WStatus.idle (WStatus.busy tk)
        s.workers w hw
      simp only [execIds, inFlightL, busyTask, Option.toList, List.map_append,
        List.map_cons, List.map_nil, List.count_append, List.count_singleton,
        List.count_nil, List.count_cons] at h0 hset ⊢
      omega
    | exit w hw hstop hq =>
      have h0 := ih t
      have hset := count_filterMap_set t WStatus.terminated WStatus.idle
        s.workers w hw
      simp only [execIds, inFlightL, busyTask, Option.toList,
        List.count_nil] at h0 hset ⊢
      omega
    | setStop => simpa [execIds, inFlightL] using ih t

theorem reach_term_stop {env : Nat → Body} {n : Nat} {s : PState}
    (h : Reach env n s) :
    WStatus.terminated ∈ s.workers → s.stop = true := by
  induction h with
  | init =>
    intro hmem
    simp only [mkPool] at hmem
    exact absurd (List.eq_of_mem_replicate hmem) (by simp)
  | @step s s2 hr hs ih =>
    cases hs with
    | enq s2 hdl he =>
      obtain ⟨hstop, hs2, hh⟩ := enqueueOp_ok_elim he
      subst hs2
      intro hmem
      have hx := ih (by simpa using hmem)
      rw [hstop] at hx
      cases hx
    | claim w tk q hw hq =>
      intro hmem
      have hmem2 : WStatus.terminated ∈ s.workers.set w (WStatus.busy tk) := hmem
      show s.stop = true
      rcases List.mem_or_eq_of_mem_set hmem2 with h1 | h1
      · exact ih h1
      · cases h1
    | exec w tk hw =>
      intro hmem
      have hmem2 : WStatus.terminated ∈ s.workers.set w WStatus.idle := hmem
      show s.stop = true
      rcases List.mem_or_eq_of_mem_set hmem2 with h1 | h1
      · exact ih h1
      · cases h1
    | exit w hw hstop hq =>
      intro _
      exact hstop
    | setStop =>
      intro _
      rfl

theorem reach_allterm_queue {env : Nat → Body} {n : Nat} {s : PState}
    (h : Reach env n s) :
    0 < n → allTerminated s.workers → s.queue = [] := by
  induction h with
  | init => intro _ _; rfl
  | @step s s2 hr hs ih =>
    intro hn hterm
    cases hs with
    | enq s2 hdl he =>
      obtain ⟨hstop, hs2, hh⟩ := enqueueOp_ok_elim he
      subst hs2
      exfalso
      have hlen : s.workers.length = n := (reach_hist hr).2.2
      have hne : s.workers ≠ [] := by
        intro hx
        rw [hx] at hlen
        simp at hlen
        omega
      obtain ⟨a, l, hal⟩ := List.exists_cons_of_ne_nil hne
      have hterm2 : allTerminated s.workers := hterm
      have ha : a = WStatus.terminated := hterm2 a (by rw [hal]; exact List.mem_cons_self a l)
      have hmem : WStatus.terminated ∈ s.workers := by
        rw [hal, ← ha]
        exact List.mem_cons_self a l
      have hx := reach_term_stop hr hmem
      rw [hstop] at hx
      cases hx
    | claim w tk q hw hq =>
      exfalso
      obtain ⟨hwlt, -⟩ := List.getElem?_eq_some_iff.mp hw
      have hth : (s.workers.set w (WStatus.busy tk))[w]? = some (WStatus.busy tk) :=
        List.getElem?_set_self (by simpa using hwlt)
      have hmem : WStatus.busy tk ∈ s.workers.set w (WStatus.busy tk) :=
        List.getElem?_mem hth
      cases hterm _ hmem
    | exec w tk hw =>
      exfalso
      obtain ⟨hwlt, -⟩ := List.getElem?_eq_some_iff.mp hw
      have hth : (s.workers.set w WStatus.idle)[w]? = some WStatus.idle :=
        List.getElem?_set_self (by simpa using hwlt)
      have hmem : WStatus.idle ∈ s.workers.set w WStatus.idle :=
        List.getElem?_mem hth
      cases hterm _ hmem
    | exit w hw hstop hq => exact hq
    | setStop => exact ih hn hterm

theorem reach_single_order {env : Nat → Body} {n : Nat} {s : PState}
    (h : Reach env n s) :
    s.workers.length = 1 → execIds s ++ inFlightL s = s.claimed := by
  induction h with
  | init =>
    intro _
    simp [mkPool, execIds, inFlightL, filterMap_busy_replicate]
  | @step s s2 hr hs ih =>
    intro hlen
    cases hs with
    | enq s2 hdl he =>
      obtain ⟨hstop, hs2, hh⟩ := enqueueOp_ok_elim he
      subst hs2
      exact ih (by simpa using hlen)
    | claim w tk q hw hq =>
      have hlen0 : s.workers.length = 1 := by simpa using hlen
      obtain ⟨y, hy⟩ := List.length_eq_one.mp hlen0
      rw [hy] at hw
      have hw0 : w = 0 := by
        cases w with
        | zero => rfl
        | succ w => simp at hw
      subst hw0
      simp only [List.getElem?_cons_zero, Option.some.injEq] at hw
      have ih0 := ih hlen0
      have hif : inFlightL s = [] := by
        rw [inFlightL, hy, hw]
        rfl
      rw [hif, List.append_nil] at ih0
      show execIds s ++ (s.workers.set 0 (WStatus.busy tk)).filterMap busyTask
        = s.claimed ++ [tk]
      rw [hy, hw]
      rw [ih0]
      rfl
    | exec w tk hw =>
      have hlen0 : s.workers.length = 1 := by simpa using hlen
      obtain ⟨y, hy⟩ := List.length_eq_one.mp hlen0
      rw [hy] at hw
      have hw0 : w = 0 := by
        cases w with
        | zero => rfl
        | succ w => simp at hw
      subst hw0
      simp only [List.getElem?_cons_zero, Option.some.injEq] at hw
      have ih0 := ih hlen0
      have hif : inFlightL s = [tk] := by
        rw [inFlightL, hy, hw]
        rfl
      rw [hif] at ih0
      show (s.executed ++ [(tk, runBody (env tk))]).map Prod.fst
          ++ (s.workers.set 0 WStatus.idle).filterMap busyTask = s.claimed
      rw [hy, hw]
      simp only [List.map_append]
      rw [List.set_cons_zero]
      have hnil : ([WStatus.idle] : List WStatus).filterMap busyTask = [] := rfl
      rw [hnil, List.append_nil]
      exact ih0
    | exit w hw hstop hq =>
      have hlen0 : s.workers.length = 1 := by simpa using hlen
      obtain ⟨y, hy⟩ := List.length_eq_one.mp hlen0
      rw [hy] at hw
      have hw0 : w = 0 := by
        cases w with
        | zero => rfl
        | succ w => simp at hw
      subst hw0
      simp only [List.getElem?_cons_zero, Option.some.injEq] at hw
      have ih0 := ih hlen0
      have hif : inFlightL s = [] := by
        rw [inFlightL, hy, hw]
        rfl
      show execIds s ++ (s.workers.set 0 WStatus.terminated).filterMap busyTask
        = s.claimed
      rw [hy, List.set_cons_zero]
      have hnil : ([WStatus.terminated] : List WStatus).filterMap busyTask = [] := rfl
      rw [hnil, List.append_nil]
      rw [hif, List.append_nil] at ih0
      exact ih0
    | setStop => exact ih (by simpa using hlen)

theorem nodup_idx_unique {L : List Nat} (h : L.Nodup) {i j a : Nat}
    (hi : L[i]? = some a) (hj : L[j]? = some a) : i = j := by
  obtain ⟨hi1, hi2⟩ := List.getElem?_eq_some_iff.mp hi
  obtain ⟨hj1, hj2⟩ := List.getElem?_eq_some_iff.mp hj
  exact (List.Nodup.getElem_inj_iff h).mp (hi2.trans hj2.symm)

theorem prefix_getElem {l1 l2 L : List Nat} (hL : l1 ++ l2 = L)
    (hnd : L.Nodup) {i a : Nat} (hi : L[i]? = some a) (ha : a ∈ l1) :
    l1[i]? = some a := by
  obtain ⟨ia, hia⟩ := List.mem_iff_getElem?.mp ha
  have hlt : ia < l1.length := (List.getElem?_eq_some_iff.mp hia).1
  have hia2 : L[ia]? = some a := by
    rw [← hL, List.getElem?_append_left hlt]
    exact hia
  have hx : ia = i := nodup_idx_unique hnd hia2 hi
  subst hx
  exact hia

theorem busy_mem_filterMap : ∀ (l : List WStatus) (w tk : Nat),
    l[w]? = some (WStatus.busy tk) → tk ∈ l.filterMap busyTask := by
  intro l
  induction l with
  | nil => intro w tk hw; simp at hw
  | cons a tl ih =>
    intro w tk hw
    cases w with
    | zero =>
      simp only [List.getElem?_cons_zero, Option.some.injEq] at hw
      subst hw
      rw [List.filterMap_cons_some (rfl : busyTask (WStatus.busy tk) = some tk)]
      exact List.mem_cons_self _ _
    | succ w =>
      simp only [List.getElem?_cons_succ] at hw
      have hm := ih w tk hw
      cases a with
      | busy ta =>
        rw [List.filterMap_cons_some (rfl : busyTask (WStatus.busy ta) = some ta)]
        exact List.mem_cons_of_mem _ hm
      | idle =>
        rw [List.filterMap_cons_none (rfl : busyTask WStatus.idle = none)]
        exact hm
      | terminated =>
        rw [List.filterMap_cons_none (rfl : busyTask WStatus.terminated = none)]
        exact hm

theorem two_busy_le_count : ∀ (l : List WStatus) (w1 w2 tk : Nat), w1 < w2 →
    l[w1]? = some (WStatus.busy tk) → l[w2]? = some (WStatus.busy tk) →
    2 ≤ (l.filterMap busyTask).count tk := by
  intro l
  induction l with
  | nil => intro w1 w2 tk h12 h1 h2; simp at h1
  | cons a tl ih =>
    intro w1 w2 tk h12 h1 h2
    cases w1 with
    | zero =>
      simp only [List.getElem?_cons_zero, Option.some.injEq] at h1
      subst h1
      cases w2 with
      | zero => omega
      | succ w2 =>
        simp only [List.getElem?_cons_succ] at h2
        have hm := busy_mem_filterMap tl w2 tk h2
        have hc : 1 ≤ (tl.filterMap busyTask).count tk :=
          List.one_le_count_iff.mpr hm
        rw [List.filterMap_cons_some (rfl : busyTask (WStatus.busy tk) = some tk)]
        simpa using hm
    | succ w1 =>
      cases w2 with
      | zero => omega
      | succ w2 =>
        simp only [List.getElem?_cons_succ] at h1 h2
        have hx := ih w1 w2 tk (by omega) h1 h2
        rw [count_filterMap_cons]
        omega

/-! ### Concrete interleavings -/

theorem reach_singleRunMid : Reach envC 1 singleRunMid := by
  have h0 : Reach envC 1 (mkPool 1) := Reach.init
  have h1 : Reach envC 1 ⟨false, [0], [WStatus.idle], [], [], [0], 1⟩ :=
    Reach.step h0 (Step.enq _ _ 0 rfl)
  have h2 : Reach envC 1 ⟨false, [0, 1], [WStatus.idle], [], [], [0, 1], 2⟩ :=
    Reach.step h1 (Step.enq _ _ 1 rfl)
  have h3 : Reach envC 1 ⟨false, [0, 1, 2], [WStatus.idle], [], [], [0, 1, 2], 3⟩ :=
    Reach.step h2 (Step.enq _ _ 2 rfl)
  have h4 : Reach envC 1 ⟨false, [1, 2], [WStatus.busy 0], [0], [], [0, 1, 2], 3⟩ :=
    Reach.step h3 (Step.claim _ 0 0 [1, 2] rfl rfl)
  have h5 : Reach envC 1
      ⟨false, [1, 2], [WStatus.idle], [0], [(0, Outcome.ok 1)], [0, 1, 2], 3⟩ :=
    Reach.step h4 (Step.exec _ 0 0 rfl)
  exact Reach.step h5 (Step.claim _ 0 1 [2] rfl rfl)

theorem reach_singleRunStopped : Reach envC 1 singleRunStopped := by
  have h6 := reach_singleRunMid
  have h7 : Reach envC 1
      ⟨false, [2], [WStatus.idle], [0, 1],
        [(0, Outcome.ok 1), (1, Outcome.err 7)], [0, 1, 2], 3⟩ :=
    Reach.step h6 (Step.exec _ 0 1 rfl)
  have h8 : Reach envC 1
      ⟨false, [], [WStatus.busy 2], [0, 1, 2],
        [(0, Outcome.ok 1), (1, Outcome.err 7)], [0, 1, 2], 3⟩ :=
    Reach.step h7 (Step.claim _ 0 2 [] rfl rfl)
  have h9 : Reach envC 1
      ⟨false, [], [WStatus.idle], [0, 1, 2],
        [(0, Outcome.ok 1), (1, Outcome.err 7), (2, Outcome.ok 3)], [0, 1, 2], 3⟩ :=
    Reach.step h8 (Step.exec _ 0 2 rfl)
  exact Reach.step h9 (Step.setStop _)

theorem reach_singleRunFinal : Reach envC 1 singleRunFinal :=
  Reach.step reach_singleRunStopped
    (Step.exit singleRunStopped 0 rfl rfl rfl)

theorem reach_drainCexState : Reach env0 2 drainCexState := by
  have h0 : Reach env0 2 (mkPool 2) := Reach.init
  have h1 : Reach env0 2
      ⟨false, [0], [WStatus.idle, WStatus.idle], [], [], [0], 1⟩ :=
    Reach.step h0 (Step.enq _ _ 0 rfl)
  have h2 : Reach env0 2
      ⟨true, [0], [WStatus.idle, WStatus.idle], [], [], [0], 1⟩ :=
    Reach.step h1 (Step.setStop _)
  have h3 : Reach env0 2
      ⟨true, [], [WStatus.idle, WStatus.busy 0], [0], [], [0], 1⟩ :=
    Reach.step h2 (Step.claim _ 1 0 [] rfl rfl)
  exact Reach.step h3 (Step.exit _ 0 rfl rfl rfl)

theorem reach_unorderedDoneState : Reach env0 2 unorderedDoneState := by
  have h0 : Reach env0 2 (mkPool 2) := Reach.init
  have h1 : Reach env0 2
      ⟨false, [0], [WStatus.idle, WStatus.idle], [], [], [0], 1⟩ :=
    Reach.step h0 (Step.enq _ _ 0 rfl)
  have h2 : Reach env0 2
      ⟨false, [0, 1], [WStatus.idle, WStatus.idle], [], [], [0, 1], 2⟩ :=
    Reach.step h1 (Step.enq _ _ 1 rfl)
  have h3 : Reach env0 2
      ⟨false, [1], [WStatus.busy 0, WStatus.idle], [0], [], [0, 1], 2⟩ :=
    Reach.step h2 (Step.claim _ 0 0 [1] rfl rfl)
  have h4 : Reach env0 2
      ⟨false, [], [WStatus.busy 0, WStatus.busy 1], [0, 1], [], [0, 1], 2⟩ :=
    Reach.step h3 (Step.claim _ 1 1 [] rfl rfl)
  have h5 : Reach env0 2
      ⟨false, [], [WStatus.busy 0, WStatus.idle], [0, 1],
        [(1, Outcome.ok 0)], [0, 1], 2⟩ :=
    Reach.step h4 (Step.exec _ 1 1 rfl)
  exact Reach.step h5 (Step.exec _ 0 0 rfl)

/-- C2 counterexample: in a two-worker pool a task enqueued before shutdown
began can still be unexecuted (held in flight by one worker) at a reachable
state in which the other worker has already terminated, so an enqueued task
need not be executed before any worker terminates. -/
theorem c2_early_exit_counterexample :
    Reach env0 2 drainCexState ∧
    drainCexState.workers[0]? = some WStatus.terminated ∧
    0 ∈ drainCexState.enqueued ∧
    0 ∉ execIds drainCexState :=
  ⟨reach_drainCexState, rfl, by decide, by decide⟩

/-- C2 amended: shutdown drains — every task successfully enqueued is
executed before all workers have terminated (so before the destructor's joins
return), and a worker's loop exits only when the pool is stopping and the
queue is empty; hence no enqueued task is discarded. -/
theorem c2_drain_before_all_terminate :
    (∀ (env : Nat → Body) (n : Nat) (s : PState), Reach env n s → 0 < n →
      allTerminated s.workers → ∀ tk ∈ s.enqueued, tk ∈ execIds s) ∧
    (∀ (env : Nat → Body) (s s2 : PState) (w : Nat), Step env s s2 →
      ¬ s.workers[w]? = some WStatus.terminated →
      s2.workers[w]? = some WStatus.terminated →
      s.stop = true ∧ s.queue = []) := by
  constructor
  · intro env n s hr hn hterm tk hmem
    have hq : s.queue = [] := reach_allterm_queue hr hn hterm
    have hif : inFlightL s = [] := by
      rw [inFlightL, List.filterMap_eq_nil_iff]
      intro a ha
      rw [hterm a ha]
      rfl
    have hc := reach_count hr tk
    rw [hq, hif] at hc
    simp only [List.count_nil] at hc
    have h1 : 1 ≤ s.enqueued.count tk := List.one_le_count_iff.mpr hmem
    have h2 : 1 ≤ (execIds s).count tk := by omega
    exact List.one_le_count_iff.mp h2
  · intro env s s2 w hs hnot hterm
    cases hs with
    | enq s2 hdl he =>
      obtain ⟨h1, hsub, h3⟩ := enqueueOp_ok_elim he
      subst hsub
      exact absurd hterm hnot
    | claim w2 tk q hw hq =>
      by_cases hww : w2 = w
      · subst hww
        obtain ⟨hlt, -⟩ := List.getElem?_eq_some_iff.mp hw
        have hterm2 :
            (s.workers.set w2 (WStatus.busy tk))[w2]? = some WStatus.terminated :=
          hterm
        rw [List.getElem?_set_self (by simpa using hlt)] at hterm2
        simp at hterm2
      · have hterm2 :
            (s.workers.set w2 (WStatus.busy tk))[w]? = some WStatus.terminated :=
          hterm
        rw [List.getElem?_set_ne hww] at hterm2
        exact absurd hterm2 hnot
    | exec w2 tk hw =>
      by_cases hww : w2 = w
      · subst hww
        obtain ⟨hlt, -⟩ := List.getElem?_eq_some_iff.mp hw
        have hterm2 :
            (s.workers.set w2 WStatus.idle)[w2]? = some WStatus.terminated :=
          hterm
        rw [List.getElem?_set_self (by simpa using hlt)] at hterm2
        simp at hterm2
      · have hterm2 :
            (s.workers.set w2 WStatus.idle)[w]? = some WStatus.terminated :=
          hterm
        rw [List.getElem?_set_ne hww] at hterm2
        exact absurd hterm2 hnot
    | exit w2 hw hstop hq =>
      by_cases hww : w2 = w
      · exact ⟨hstop, hq⟩
      · have hterm2 :
            (s.workers.set w2 WStatus.terminated)[w]? = some WStatus.terminated :=
          hterm
        rw [List.getElem?_set_ne hww] at hterm2
        exact absurd hterm2 hnot
    | setStop => exact absurd hterm hnot

/-- Witness for C2 on the completed single-worker three-task run. -/
theorem c2_drain_witness :
    (Reach envC 1 singleRunFinal ∧ 0 < 1 ∧
      allTerminated singleRunFinal.workers) ∧
    (∀ tk ∈ singleRunFinal.enqueued, tk ∈ execIds singleRunFinal) ∧
    (Step envC singleRunStopped singleRunFinal ∧
      ¬ singleRunStopped.workers[0]? = some WStatus.terminated) ∧
    (singleRunStopped.stop = true ∧ singleRunStopped.queue = []) := by
  have hstep : Step envC singleRunStopped singleRunFinal :=
    Step.exit singleRunStopped 0 rfl rfl rfl
  refine ⟨⟨reach_singleRunFinal, by omega, by decide⟩, ?_, ⟨hstep, by decide⟩, ?_⟩
  · exact c2_drain_before_all_terminate.1 envC 1 singleRunFinal
      reach_singleRunFinal (by omega) (by decide)
  · exact c2_drain_before_all_terminate.2 envC singleRunStopped singleRunFinal 0
      hstep (by decide) rfl

/-- C5: a failure raised inside a task body is captured by the packaged task
(a raising body stores exactly its failure as the handle's outcome), every
recorded outcome depends only on that task's own body, and a worker holding a
claimed task never terminates in one transition — failures never propagate to
the thread's top level and do not prevent other submitted tasks from
executing. -/
theorem c5_failure_isolation (env : Nat → Body) (n : Nat) (s : PState)
    (hr : Reach env n s) :
    (∀ p ∈ s.executed, p.2 = runBody (env p.1)) ∧
    (∀ (s2 : PState) (w tk : Nat), Step env s s2 →
      s.workers[w]? = some (WStatus.busy tk) →
      ¬ s2.workers[w]? = some WStatus.terminated) ∧
    (∀ e, runBody (Body.raise e) = Outcome.err e) := by
  refine ⟨?_, ?_, fun e => rfl⟩
  · induction hr with
    | init => intro p hp; simp [mkPool] at hp
    | @step s s2 hr hs ih =>
      cases hs with
      | enq s2 hdl he =>
        obtain ⟨h1, hsub, h3⟩ := enqueueOp_ok_elim he
        subst hsub
        exact ih
      | claim w2 tk q hw hq => exact ih
      | exec w2 tk hw =>
        intro p hp
        have hp2 : p ∈ s.executed ++ [(tk, runBody (env tk))] := hp
        rcases List.mem_append.mp hp2 with hx | hx
        · exact ih p hx
        · simp only [List.mem_singleton] at hx
          subst hx
          rfl
      | exit w2 hw hstop hq => exact ih
      | setStop => exact ih
  · intro s2 w tk hs hw
    cases hs with
    | enq s2 hdl he =>
      obtain ⟨h1, hsub, h3⟩ := enqueueOp_ok_elim he
      subst hsub
      intro hterm
      exact absurd (hw.symm.trans hterm) (by simp)
    | claim w2 tk2 q hw2 hq =>
      intro hterm
      by_cases hww : w2 = w
      · subst hww
        exact absurd (hw2.symm.trans hw) (by simp)
      · have hterm2 :
            (s.workers.set w2 (WStatus.busy tk2))[w]? = some WStatus.terminated :=
          hterm
        rw [List.getElem?_set_ne hww, hw] at hterm2
        simp at hterm2
    | exec w2 tk2 hw2 =>
      intro hterm
      by_cases hww : w2 = w
      · subst hww
        obtain ⟨hlt, -⟩ := List.getElem?_eq_some_iff.mp hw2
        have hterm2 :
            (s.workers.set w2 WStatus.idle)[w2]? = some WStatus.terminated :=
          hterm
        rw [List.getElem?_set_self (by simpa using hlt)] at hterm2
        simp at hterm2
      · have hterm2 :
            (s.workers.set w2 WStatus.idle)[w]? = some WStatus.terminated :=
          hterm
        rw [List.getElem?_set_ne hww, hw] at hterm2
        simp at hterm2
    | exit w2 hw2 hstop hq =>
      intro hterm
      by_cases hww : w2 = w
      · subst hww
        exact absurd (hw2.symm.trans hw) (by simp)
      · have hterm2 :
            (s.workers.set w2 WStatus.terminated)[w]? = some WStatus.terminated :=
          hterm
        rw [List.getElem?_set_ne hww, hw] at hterm2
        simp at hterm2
    | setStop =>
      intro hterm
      exact absurd (hw.symm.trans hterm) (by simp)

/-- Witness for C5 on the completed run in which the second of three tasks
raises: the recorded outcomes are ok 1, err 7, ok 3. -/
theorem c5_failure_isolation_witness :
    Reach envC 1 singleRunFinal ∧
    ((∀ p ∈ singleRunFinal.executed, p.2 = runBody (envC p.1)) ∧
      (∀ (s2 : PState) (w tk : Nat), Step envC singleRunFinal s2 →
        singleRunFinal.workers[w]? = some (WStatus.busy tk) →
        ¬ s2.workers[w]? = some WStatus.terminated) ∧
      (∀ e, runBody (Body.raise e) = Outcome.err e)) ∧
    singleRunFinal.executed =
      [(0, Outcome.ok 1), (1, Outcome.err 7), (2, Outcome.ok 3)] :=
  ⟨reach_singleRunFinal,
   c5_failure_isolation envC 1 singleRunFinal reach_singleRunFinal,
   rfl⟩

/-- C7: FIFO dequeue — the claimed history plus the remaining queue is
exactly the enqueue history, so tasks are claimed in enqueue order: two tasks
at enqueue positions i < j that have both been claimed sit at the same
positions i and j of the claimed history; with a single worker the same holds
for the execution-start order; and completion order across two workers is
unconstrained: a reachable two-worker state completes the two tasks in the
order opposite to their claim order. -/
theorem c7_fifo_dequeue_order :
    (∀ (env : Nat → Body) (n : Nat) (s : PState), Reach env n s →
      s.claimed ++ s.queue = s.enqueued ∧
      (∀ (i j a b : Nat), i < j → s.enqueued[i]? = some a → s.enqueued[j]? = some b →
        a ∈ s.claimed → b ∈ s.claimed →
        s.claimed[i]? = some a ∧ s.claimed[j]? = some b) ∧
      (s.workers.length = 1 →
        ∀ (i j a b : Nat), i < j → s.enqueued[i]? = some a → s.enqueued[j]? = some b →
          a ∈ execIds s → b ∈ execIds s →
          (execIds s)[i]? = some a ∧ (execIds s)[j]? = some b)) ∧
    (Reach env0 2 unorderedDoneState ∧
      unorderedDoneState.claimed = [0, 1] ∧
      execIds unorderedDoneState = [1, 0]) := by
  constructor
  · intro env n s hr
    obtain ⟨h1, h2, h3⟩ := reach_hist hr
    have hnd : s.enqueued.Nodup := by
      rw [h2]
      exact List.nodup_range _
    refine ⟨h1, ?_, ?_⟩
    · intro i j a b hij hi hj ha hb
      exact ⟨prefix_getElem h1 hnd hi ha, prefix_getElem h1 hnd hj hb⟩
    · intro hlen i j a b hij hi hj ha hb
      have h4 := reach_single_order hr hlen
      have h5 : execIds s ++ (inFlightL s ++ s.queue) = s.enqueued := by
        rw [← List.append_assoc, h4, h1]
      exact ⟨prefix_getElem h5 hnd hi ha, prefix_getElem h5 hnd hj hb⟩
  · exact ⟨reach_unorderedDoneState, rfl, rfl⟩

/-- Witness for C7 on the completed single-worker three-task run. -/
theorem c7_fifo_witness :
    Reach envC 1 singleRunFinal ∧
    (singleRunFinal.claimed[0]? = some 0 ∧ singleRunFinal.claimed[1]? = some 1) ∧
    ((execIds singleRunFinal)[1]? = some 1 ∧
      (execIds singleRunFinal)[2]? = some 2) := by
  refine ⟨reach_singleRunFinal, ?_, ?_⟩
  · exact (c7_fifo_dequeue_order.1 envC 1 singleRunFinal
      reach_singleRunFinal).2.1 0 1 0 1 (by omega) (by decide) (by decide)
      (by decide) (by decide)
  · exact (c7_fifo_dequeue_order.1 envC 1 singleRunFinal
      reach_singleRunFinal).2.2 (by decide) 1 2 1 2 (by omega) (by decide)
      (by decide) (by decide) (by decide)

/-- C8: at-most-once execution — in every reachable state no task is held by
two workers at once, every task has been executed at most once, and a task
still in the queue is neither held by any worker nor already executed: the
queue owns it exclusively until exactly one worker removes it. -/
theorem c8_at_most_once (env : Nat → Body) (n : Nat) (s : PState)
    (hr : Reach env n s) :
    (∀ (w1 w2 tk : Nat), w1 ≠ w2 → s.workers[w1]? = some (WStatus.busy tk) →
      s.workers[w2]? = some (WStatus.busy tk) → False) ∧
    (∀ tk, (execIds s).count tk ≤ 1) ∧
    (∀ tk, tk ∈ s.queue →
      (∀ (w : Nat), ¬ s.workers[w]? = some (WStatus.busy tk)) ∧ tk ∉ execIds s) := by
  have hcount := reach_count hr
  have hle : ∀ tk, s.enqueued.count tk ≤ 1 := by
    intro tk
    have hnd : s.enqueued.Nodup := by
      rw [(reach_hist hr).2.1]
      exact List.nodup_range _
    exact List.nodup_iff_count_le_one.mp hnd tk
  refine ⟨?_, ?_, ?_⟩
  · intro w1 w2 tk hne h1 h2
    have h2c : 2 ≤ (inFlightL s).count tk := by
      rcases Nat.lt_or_ge w1 w2 with hlt | hge
      · exact two_busy_le_count s.workers w1 w2 tk hlt h1 h2
      · have hlt : w2 < w1 := by omega
        exact two_busy_le_count s.workers w2 w1 tk hlt h2 h1
    have ha := hcount tk
    have hb := hle tk
    omega
  · intro tk
    have ha := hcount tk
    have hb := hle tk
    omega
  · intro tk hmem
    have h1 : 1 ≤ s.queue.count tk := List.one_le_count_iff.mpr hmem
    have h2 := hcount tk
    have h3 := hle tk
    constructor
    · intro w hw
      have hm : 1 ≤ (inFlightL s).count tk :=
        List.one_le_count_iff.mpr (busy_mem_filterMap s.workers w tk hw)
      omega
    · intro hex
      have hm : 1 ≤ (execIds s).count tk := List.one_le_count_iff.mpr hex
      omega

/-- Witness for C8 at the mid-run state in which a worker holds task 1 and
task 2 is still queued. -/
theorem c8_at_most_once_witness :
    Reach envC 1 singleRunMid ∧
    ((∀ (w1 w2 tk : Nat), w1 ≠ w2 →
        singleRunMid.workers[w1]? = some (WStatus.busy tk) →
        singleRunMid.workers[w2]? = some (WStatus.busy tk) → False) ∧
      (∀ tk, (execIds singleRunMid).count tk ≤ 1) ∧
      (∀ tk, tk ∈ singleRunMid.queue →
        (∀ (w : Nat), ¬ singleRunMid.workers[w]? = some (WStatus.busy tk)) ∧
        tk ∉ execIds singleRunMid)) :=
  ⟨reach_singleRunMid, c8_at_most_once envC 1 singleRunMid reach_singleRunMid⟩

/-- C9: the stop flag is initialised false at construction, no transition
ever resets it to false once set, and the only transition that turns it from
false to true is the destructor setting stop — the pool state transitions at
most once, from running to stopping, and never reverts. -/
theorem c9_stop_monotone (env : Nat → Body) (n : Nat) (s s2 : PState) :
    (mkPool n).stop = false ∧
    (Step env s s2 → s.stop = true → s2.stop = true) ∧
    (Step env s s2 → s2.stop = true →
      s.stop = true ∨ s2 = { s with stop := true }) := by
  refine ⟨rfl, ?_, ?_⟩
  · intro hs hstop
    cases hs with
    | enq s2 hdl he =>
      obtain ⟨h1, hsub, h3⟩ := enqueueOp_ok_elim he
      rw [h1] at hstop
      cases hstop
    | claim w tk q hw hq => exact hstop
    | exec w tk hw => exact hstop
    | exit w hw h1 hq => exact hstop
    | setStop => rfl
  · intro hs h2stop
    cases hs with
    | enq s2 hdl he =>
      obtain ⟨h1, hsub, h3⟩ := enqueueOp_ok_elim he
      subst hsub
      exact Or.inl h2stop
    | claim w tk q hw hq => exact Or.inl h2stop
    | exec w tk hw => exact Or.inl h2stop
    | exit w hw h1 hq => exact Or.inl h1
    | setStop => exact Or.inr rfl

/-- Witness for C9 at the destructor transition of a fresh one-worker pool. -/
theorem c9_stop_monotone_witness :
    Step env0 (mkPool 1) { mkPool 1 with stop := true } ∧
    (mkPool 1).stop = false ∧
    ((mkPool 1).stop = true ∨
      ({ mkPool 1 with stop := true } : PState) = { mkPool 1 with stop := true }) :=
  ⟨Step.setStop (mkPool 1),
   (c9_stop_monotone env0 1 (mkPool 1) { mkPool 1 with stop := true }).1,
   (c9_stop_monotone env0 1 (mkPool 1) { mkPool 1 with stop := true }).2.2
     (Step.setStop (mkPool 1)) rfl⟩

theorem stepStar_head {env : Nat → Body} {s s2 s3 : PState}
    (h1 : Step env s s2) (h2 : StepStar env s2 s3) : StepStar env s s3 := by
  induction h2 with
  | refl => exact StepStar.tail (StepStar.refl s) h1
  | tail h hs ih => exact StepStar.tail ih hs

theorem reach_allterm_executes {env : Nat → Body} {n : Nat} {s : PState}
    (hr : Reach env n s) (hn : 0 < n) (hterm : allTerminated s.workers) :
    ∀ tk ∈ s.enqueued, tk ∈ execIds s := by
  intro tk hmem
  have hq : s.queue = [] := reach_allterm_queue hr hn hterm
  have hif : inFlightL s = [] := by
    rw [inFlightL, List.filterMap_eq_nil_iff]
    intro a ha
    rw [hterm a ha]
    rfl
  have hc := reach_count hr tk
  rw [hq, hif] at hc
  simp only [List.count_nil] at hc
  have h1 : 1 ≤ s.enqueued.count tk := List.one_le_count_iff.mpr hmem
  have h2 : 1 ≤ (execIds s).count tk := by omega
  exact List.one_le_count_iff.mp h2

theorem sum_wWeight_set : ∀ (l : List WStatus) (w : Nat) (x y : WStatus),
    l[w]? = some y →
    ((l.set w x).map wWeight).sum + wWeight y = (l.map wWeight).sum + wWeight x := by
  intro l
  induction l with
  | nil => intro w x y hw; simp at hw
  | cons a tl ih =>
    intro w x y hw
    cases w with
    | zero =>
      simp only [List.getElem?_cons_zero, Option.some.injEq] at hw
      subst hw
      simp only [List.set_cons_zero, List.map_cons, List.sum_cons]
      omega
    | succ w =>
      simp only [List.getElem?_cons_succ] at hw
      have h2 := ih w x y hw
      simp only [List.set_cons_succ, List.map_cons, List.sum_cons]
      omega

theorem not_allterm_exists {l : List WStatus} (h : ¬ allTerminated l) :
    ∃ (w : Nat) (y : WStatus), l[w]? = some y ∧ y ≠ WStatus.terminated := by
  rw [allTerminated] at h
  push_neg at h
  obtain ⟨y, hy, hne⟩ := h
  obtain ⟨w, hw⟩ := List.mem_iff_getElem?.mp hy
  exact ⟨w, y, hw, hne⟩

theorem drain_schedule {env : Nat → Body} {n : Nat} :
    ∀ (k : Nat) (s : PState), poolMeasure s ≤ k → Reach env n s →
      s.stop = true →
      ∃ s2 : PState, StepStar env s s2 ∧ s2.stop = true ∧
        allTerminated s2.workers ∧ s2.enqueued = s.enqueued ∧
        Reach env n s2 := by
  intro k
  induction k with
  | zero =>
    intro s hm hr hstop
    refine ⟨s, StepStar.refl s, hstop, ?_, rfl, hr⟩
    by_contra hterm
    obtain ⟨w, y, hw, hy⟩ := not_allterm_exists hterm
    have hmem : y ∈ s.workers := List.getElem?_mem hw
    have hmap : wWeight y ∈ s.workers.map wWeight :=
      List.mem_map_of_mem wWeight hmem
    have h1 : wWeight y ≤ (s.workers.map wWeight).sum :=
      List.single_le_sum (fun x _ => Nat.zero_le x) _ hmap
    have h2 : 1 ≤ wWeight y := by
      cases y with
      | terminated => exact absurd rfl hy
      | idle => exact Nat.le_refl 1
      | busy t => simp [wWeight]
    have h3 : 2 * s.queue.length + (s.workers.map wWeight).sum ≤ 0 := hm
    omega
  | succ k ih =>
    intro s hm hr hstop
    by_cases hterm : allTerminated s.workers
    · exact ⟨s, StepStar.refl s, hstop, hterm, rfl, hr⟩
    · obtain ⟨w, y, hw, hy⟩ := not_allterm_exists hterm
      have hm0 : 2 * s.queue.length + (s.workers.map wWeight).sum ≤ k + 1 := hm
      cases y with
      | terminated => exact absurd rfl hy
      | busy t =>
        have hstep : Step env s
            { s with
                workers := s.workers.set w WStatus.idle
                executed := s.executed ++ [(t, runBody (env t))] } :=
          Step.exec s w t hw
        have hsum := sum_wWeight_set s.workers w WStatus.idle (WStatus.busy t) hw
        have hm1 : poolMeasure
            { s with
                workers := s.workers.set w WStatus.idle
                executed := s.executed ++ [(t, runBody (env t))] } ≤ k := by
          show 2 * s.queue.length
            + ((s.workers.set w WStatus.idle).map wWeight).sum ≤ k
          simp only [wWeight] at hsum
          omega
        obtain ⟨s2, hss, h1, h2, h3, h4⟩ :=
          ih _ hm1 (Reach.step hr hstep) hstop
        exact ⟨s2, stepStar_head hstep hss, h1, h2, h3, h4⟩
      | idle =>
        cases hq : s.queue with
        | nil =>
          have hstep : Step env s
              { s with workers := s.workers.set w WStatus.terminated } :=
            Step.exit s w hw hstop hq
          have hsum :=
            sum_wWeight_set s.workers w WStatus.terminated WStatus.idle hw
          have hm1 : poolMeasure
              { s with workers := s.workers.set w WStatus.terminated } ≤ k := by
            show 2 * s.queue.length
              + ((s.workers.set w WStatus.terminated).map wWeight).sum ≤ k
            simp only [wWeight] at hsum
            omega
          obtain ⟨s2, hss, h1, h2, h3, h4⟩ :=
            ih _ hm1 (Reach.step hr hstep) hstop
          exact ⟨s2, stepStar_head hstep hss, h1, h2, h3, h4⟩
        | cons t q =>
          have hstep : Step env s
              { s with
                  queue := q
                  workers := s.workers.set w (WStatus.busy t)
                  claimed := s.claimed ++ [t] } :=
            Step.claim s w t q hw hq
          have hsum := sum_wWeight_set s.workers w (WStatus.busy t) WStatus.idle hw
          have hlen : s.queue.length = q.length + 1 := by rw [hq]; rfl
          have hm1 : poolMeasure
              { s with
                  queue := q
                  workers := s.workers.set w (WStatus.busy t)
                  claimed := s.claimed ++ [t] } ≤ k := by
            show 2 * q.length
              + ((s.workers.set w (WStatus.busy t)).map wWeight).sum ≤ k
            simp only [wWeight] at hsum
            omega
          obtain ⟨s2, hss, h1, h2, h3, h4⟩ :=
            ih _ hm1 (Reach.step hr hstep) hstop
          exact ⟨s2, stepStar_head hstep hss, h1, h2, h3, h4⟩

/-- C6: shutdown is the destructor: its stop write is the setStop transition,
available in every reachable state (and run implicitly at destruction);
afterwards the workers can run to completion — some interleaving of worker
transitions executes every enqueued task (in-flight ones included) and
terminates every worker, and the destructor's joins return exactly when such
a completed state is reached.  Shutdown is idempotent: once the pool is
stopped with every worker terminated, every further transition — including
the stop write of a second shutdown — leaves the state exactly unchanged. -/
theorem c6_shutdown_joins_idempotent :
    (∀ (env : Nat → Body) (n : Nat) (s : PState), Reach env n s → 0 < n →
      Step env s { s with stop := true } ∧
      ∃ s2 : PState, StepStar env { s with stop := true } s2 ∧
        s2.stop = true ∧ allTerminated s2.workers ∧
        s2.enqueued = s.enqueued ∧
        (∀ tk ∈ s.enqueued, tk ∈ execIds s2)) ∧
    (∀ (env : Nat → Body) (s s2 : PState), s.stop = true →
      allTerminated s.workers → Step env s s2 → s2 = s) := by
  constructor
  · intro env n s hr hn
    refine ⟨Step.setStop s, ?_⟩
    have hr1 : Reach env n { s with stop := true } :=
      Reach.step hr (Step.setStop s)
    obtain ⟨s2, hss, hstop2, hterm2, henq2, hr2⟩ :=
      drain_schedule (poolMeasure { s with stop := true })
        { s with stop := true } (Nat.le_refl _) hr1 rfl
    refine ⟨s2, hss, hstop2, hterm2, henq2, ?_⟩
    intro tk hmem
    refine reach_allterm_executes hr2 hn hterm2 tk ?_
    rw [henq2]
    exact hmem
  · intro env s s2 hstop hterm hs
    cases hs with
    | enq s2 hdl he =>
      obtain ⟨h1, -, -⟩ := enqueueOp_ok_elim he
      rw [hstop] at h1
      cases h1
    | claim w tk q hw hq =>
      exact absurd (hterm _ (List.getElem?_mem hw)) (by decide)
    | exec w tk hw =>
      exact absurd (hterm _ (List.getElem?_mem hw)) (by simp)
    | exit w hw h1 hq =>
      exact absurd (hterm _ (List.getElem?_mem hw)) (by decide)
    | setStop =>
      obtain ⟨st, q, ws, cl, ex, en, ni⟩ := s
      have hst : st = true := hstop
      subst hst
      rfl

/-- Witness for C6: at a fresh one-worker pool the shutdown transition and a
completing drain exist; at the completed three-task run every transition from
the stopped, all-terminated state — in particular a repeated stop write —
changes nothing. -/
theorem c6_shutdown_witness :
    (Reach env0 1 (mkPool 1) ∧ 0 < 1 ∧
      (Step env0 (mkPool 1) { mkPool 1 with stop := true } ∧
        ∃ s2 : PState, StepStar env0 { mkPool 1 with stop := true } s2 ∧
          s2.stop = true ∧ allTerminated s2.workers ∧
          s2.enqueued = (mkPool 1).enqueued ∧
          (∀ tk ∈ (mkPool 1).enqueued, tk ∈ execIds s2))) ∧
    (singleRunFinal.stop = true ∧ allTerminated singleRunFinal.workers ∧
      Step envC singleRunFinal { singleRunFinal with stop := true } ∧
      ({ singleRunFinal with stop := true } : PState) = singleRunFinal) :=
  ⟨⟨Reach.init, by omega,
    c6_shutdown_joins_idempotent.1 env0 1 (mkPool 1) Reach.init (by omega)⟩,
   ⟨rfl, by decide, Step.setStop singleRunFinal,
    c6_shutdown_joins_idempotent.2 envC singleRunFinal
      { singleRunFinal with stop := true } rfl (by decide)
      (Step.setStop singleRunFinal)⟩⟩
